import Mathlib

/-!
Shallow embedding of `src/symspell.js` (IceCreamYou/SymSpell), a Symmetric
Delete spelling-correction engine, together with proofs about the embedded
operations.  Strings are modelled as `List Char`; the JS dictionary object
(keyed by the string `language + word`) is modelled as a function from keys
to optional entries; JS numbers used as nonnegative integer counters and
distances are modelled as `Nat`.
-/

namespace SymSpell

/-- Strings of the JS program, modelled as lists of characters. -/
abbrev Str := List Char

/-- The `EditItem` record of the source: a term produced by deleting
characters, tagged with the cumulative number of deletions. -/
structure EditItem where
  term : Str
  distance : Nat
deriving DecidableEq

/-- The `SuggestItem` record of the source: a suggested correction with its
verified edit distance and dictionary frequency count. -/
structure SuggestItem where
  term : Str
  distance : Nat
  count : Nat
deriving DecidableEq

/-- The `DictionaryItem` record of the source: `term` is the canonical word
stored at this key (the empty string when the key is only a delete-variant
bucket), `suggestions` the nearby-term references, and `count` the number of
times the canonical word was added. -/
structure DictionaryItem where
  term : Str
  suggestions : List EditItem
  count : Nat
deriving DecidableEq

/-- `SymSpell.Modes` of the source (TOP = 0, SMALLEST = 1, ALL = 2). -/
inductive Mode where
  | TOP
  | SMALLEST
  | ALL
deriving DecidableEq

/-- The dictionary: the JS plain object `this.dictionary`, a map from the
concatenated key `language + word` to an entry. -/
def Dict := Str → Option DictionaryItem

/-- A fresh dictionary (`this.dictionary = {}`). -/
def emptyDict : Dict := fun _ => none

/-- Assignment `this.dictionary[key] = item`. -/
def updateDict (d : Dict) (k : Str) (v : DictionaryItem) : Dict :=
  fun q => if q = k then some v else d q

/-! ## Distance Verifier: the `distance` function (src/symspell.js lines 317-352)

The JS function fills a `(m+2) x (n+2)` dynamic-programming table `score`
row by row, with a side table `sd` recording for each character the last row
where it appeared in `source`, and a per-row register `DB` recording the last
column of the current row where the row character matched `target`.  We
embed the table as a recursively defined function on cell indices.  The JS
expression `score[i1] ? ... : Infinity` always takes the first branch
(every `score[i1]` is an array, hence truthy), so the embedding keeps only
that branch. -/

/-- Largest `k` with `1 <= k < bound` satisfying `p`, and `0` when there is
none.  This reproduces the `sd` / `DB` side-table reads of the JS code:
`sd[c]` is the last row index where `c` appeared (0 initially), `DB` the last
matching column of the current row (0 initially). -/
def lastBelow (p : Nat → Bool) : Nat → Nat
  | 0 => 0
  | k + 1 => if p k then k else lastBelow p k

/-- The DP table of the JS `distance` function.  `scoreF s t fuel i j` is the
JS value `score[i][j]`.  The `fuel` argument only drives structural
recursion: every call from `distance` passes `fuel = i + j`, and each
recursive dependency strictly decreases `i + j`, so the fuel-exhausted
branch is unreachable from `distance`.

Boundary rows as the JS loops set them: `score[0][j] = INF`,
`score[i][0] = INF` for `i >= 1`, `score[i][1] = i - 1`, `score[1][j] = j - 1`
where `INF = m + n`. -/
def scoreF (s t : Str) : Nat → Nat → Nat → Nat
  | _, 0, _ => s.length + t.length
  | _, _ + 1, 0 => s.length + t.length
  | _, 1, j + 1 => j
  | _, i + 2, 1 => i + 1
  | 0, _ + 2, _ + 2 => 0
  | fuel + 1, i + 2, j + 2 =>
    -- the JS cell score[I+1][J+1] for row I = i+1, column J = j+1;
    -- source[I-1] = s[i], target[J-1] = t[j]
    let sc := s.getD i ' '
    let tc := t.getD j ' '
    let i1 := lastBelow (fun k => s.getD (k - 1) ' ' == tc) (i + 1)
    let j1 := lastBelow (fun k => t.getD (k - 1) ' ' == sc) (j + 1)
    let base :=
      if sc == tc then scoreF s t fuel (i + 1) (j + 1)
      else
        min (scoreF s t fuel (i + 1) (j + 1))
          (min (scoreF s t fuel (i + 2) (j + 1)) (scoreF s t fuel (i + 1) (j + 2))) + 1
    min base (scoreF s t fuel i1 j1 + ((i + 1) - i1 - 1) + 1 + ((j + 1) - j1 - 1))

/-- `score s t i j` is the JS table value `score[i][j]`. -/
def score (s t : Str) (i j : Nat) : Nat :=
  scoreF s t (i + j) i j

/-- The JS `distance(source, target)`: Damerau-Levenshtein distance.  An
empty `source` string is falsy, so the JS returns `target.length`
(respectively `source.length` for an empty target), and otherwise the final
DP cell `score[m+1][n+1]`. -/
def distance (source target : Str) : Nat :=
  if source.length = 0 then target.length
  else if target.length = 0 then source.length
  else score source target (source.length + 1) (target.length + 1)

/-! ## Variant Generator: `computePermutations` (src/symspell.js lines 271-293)

For each position the JS code deletes one character, pushes the result, and
(while `editDistance < maxEditDistance`) recurses on it.  The guards
`permutations.indexOf(p) === -1` and `permutations.indexOf(nextPermutations[j]) === -1`
compare object references with strict equality; `p` and the recursive
results are freshly allocated `EditItem` objects that are never already in
the array, so both guards are always true and no deduplication happens.
The embedding therefore pushes unconditionally. -/

/-- Fuel-indexed body of `computePermutations`; the fuel only drives the
structural recursion.  Every recursive call deletes one character, so
`fuel = word.length` always suffices; the fuel-exhausted branch coincides
with the real behaviour (a word of length 0 has no variants). -/
def computePermutationsF : Nat → Str → Nat → Nat → List EditItem
  | 0, _, _, _ => []
  | fuel + 1, word, editDistance, maxEditDistance =>
    let ed := editDistance + 1
    if word.length > 1 then
      ((List.range word.length).map fun i =>
        { term := word.eraseIdx i, distance := ed } ::
          (if ed < maxEditDistance then
            computePermutationsF fuel (word.eraseIdx i) ed maxEditDistance
          else [])).flatten
    else []

/-- The JS `computePermutations(word, editDistance, maxEditDistance)`.  Both
call sites of the source pass a defined `maxEditDistance` (the engine bound
from `addWord`, the number `0` from `lookup`), so the `typeof` check of the
source is always true and the parameter is a plain `Nat` here. -/
def computePermutations (word : Str) (editDistance maxEditDistance : Nat) : List EditItem :=
  computePermutationsF word.length word editDistance maxEditDistance

/-! ## Shared helpers (src/symspell.js lines 296-312) -/

/-- The JS `wordListContains(list, value)` for lists of `EditItem`: the
`Word.prototype.equals` comparison is by the `term` field only, so the
membership test takes just the term of `value`. -/
def wordListContainsE (list : List EditItem) (t : Str) : Bool :=
  list.any fun x => x.term == t

/-- The JS `wordListContains(list, value)` for lists of `SuggestItem`. -/
def wordListContainsS (list : List SuggestItem) (t : Str) : Bool :=
  list.any fun x => x.term == t

/-- `suggestions[0].distance` for a list of `EditItem`; only read by the
source under a guard that the list is non-empty. -/
def headDistanceE : List EditItem → Nat
  | [] => 0
  | a :: _ => a.distance

/-- The JS `addOrTerminateEarly(suggestions, suggestion, mode)`: in non-ALL
modes a strictly closer new reference clears the list
(`suggestions.length = 0`), and the new reference is appended iff mode is
ALL, the list is empty, or the first element is not strictly closer than
it. -/
def addOrTerminateEarly (suggestions : List EditItem) (suggestion : EditItem)
    (mode : Mode) : List EditItem :=
  let cleared :=
    if mode ≠ Mode.ALL ∧ suggestions ≠ [] ∧ headDistanceE suggestions > suggestion.distance
    then [] else suggestions
  if mode = Mode.ALL ∨ cleared = [] ∨ headDistanceE cleared ≥ suggestion.distance
  then cleared ++ [suggestion] else cleared

/-! ## Insertion Pipeline: `addWord` (src/symspell.js lines 89-118)

The source checks only `if (this.dictionary[key])` — mere existence of the
entry, not whether its `term` (the canonical word) is set — and on the
existing-entry path just increments `count`. On the fresh path it stores the
word, registers every delete-variant, and then increments `count` through
the alias `item` (which is the object stored at `key`; the variant loop
never writes to `key` itself because every variant is strictly shorter than
`word`). -/

/-- The body of the `for` loop over `possibleSuggestions` in `addWord`
(src/symspell.js lines 99-115): register one delete-variant `ps` of `word`
into the dictionary. -/
def registerVariant (mode : Mode) (word language : Str) (dAcc : Dict) (ps : EditItem) : Dict :=
  let suggestion : EditItem := { term := word, distance := ps.distance }
  let k2 := language ++ ps.term
  match dAcc k2 with
  | some entry =>
    if wordListContainsE entry.suggestions suggestion.term then dAcc
    else updateDict dAcc k2
      { entry with suggestions := addOrTerminateEarly entry.suggestions suggestion mode }
  | none => updateDict dAcc k2 { term := [], suggestions := [suggestion], count := 0 }

/-- The JS `SymSpell.prototype.addWord(word, language)` on an engine with
bound `maxEditDistance` and mode `mode`.  The final `item.count++` of the
source mutates the object stored at `key` (in the fresh-entry branch the
variant loop cannot touch `key`, every variant being strictly shorter than
`word`), so it is modelled as an increment of the entry found at `key`. -/
def addWord (d : Dict) (maxEditDistance : Nat) (mode : Mode) (word language : Str) : Dict :=
  let key := language ++ word
  match d key with
  | some item => updateDict d key { item with count := item.count + 1 }
  | none =>
    let d1 := updateDict d key { term := word, suggestions := [], count := 0 }
    let d2 := (computePermutations word 0 maxEditDistance).foldl
      (registerVariant mode word language) d1
    match d2 key with
    | some item => updateDict d2 key { item with count := item.count + 1 }
    | none => d2

/-! ## Lookup Engine (src/symspell.js lines 137-214, 354-359) -/

/-- The JS `realEditDistance(dictItem, inputPermutation, input)`: cheap
deletion-count shortcuts, with fallback to the full Distance Verifier. -/
def realEditDistance (dictItem inputPermutation : EditItem) (input : Str) : Nat :=
  if dictItem.term = input then 0
  else if dictItem.distance = 0 then inputPermutation.distance
  else if inputPermutation.distance = 0 then dictItem.distance
  else distance dictItem.term input

/-- `suggestions[0].distance` of the JS code; only read under a guard that
the list is non-empty. -/
def headDistanceS : List SuggestItem → Nat
  | [] => 0
  | a :: _ => a.distance

/-- The inner `for` loop of `lookup` over `this.dictionary[key].suggestions`
(src/symspell.js lines 178-200): for each stored nearby reference not yet
suggested, compute its verified distance, apply the non-ALL supersede/skip
policy against `suggestions[0]`, and append the referenced canonical entry
when the distance is strictly below the bound and the entry exists. -/
def processNearby (d : Dict) (maxEditDistance : Nat) (mode : Mode) (word language : Str)
    (candidate : EditItem) (entrySuggestions : List EditItem)
    (suggestions : List SuggestItem) : List SuggestItem :=
  entrySuggestions.foldl
    (fun sugg s =>
      if wordListContainsS sugg s.term then sugg
      else
        let dist := realEditDistance s candidate word
        let pruned : List SuggestItem × Bool :=
          match mode, sugg with
          | Mode.ALL, _ => (sugg, false)
          | _, [] => (sugg, false)
          | _, s0 :: _ =>
            if s0.distance > dist then ([], false)
            else if dist > s0.distance then (sugg, true)
            else (sugg, false)
        if pruned.2 then pruned.1
        else if dist < maxEditDistance then
          match d (language ++ s.term) with
          | some di => pruned.1 ++ [{ term := di.term, distance := dist, count := di.count }]
          | none => pruned.1
        else pruned.1)
    suggestions

/-- The comparator passed to `suggestions.sort` (src/symspell.js lines
149-151), as the total preorder it induces: `a` precedes `b` when the
comparator returns a nonpositive number on `(a, b)`. -/
def suggestLe (a b : SuggestItem) : Prop :=
  a.distance < b.distance ∨ (a.distance = b.distance ∧ b.count ≤ a.count)

instance (a b : SuggestItem) : Decidable (suggestLe a b) :=
  inferInstanceAs (Decidable (_ ∨ _))

/-- Insert `a` into a sorted list, before the first element it precedes.
Folding this from the right is a stable sort, which is exactly the
behaviour ECMAScript guarantees for `Array.prototype.sort` with a
consistent comparator. -/
def insertSorted (a : SuggestItem) : List SuggestItem → List SuggestItem
  | [] => [a]
  | b :: bs => if suggestLe a b then a :: b :: bs else b :: insertSorted a bs

/-- Stable sort by `suggestLe`: the model of `suggestions.sort(comparator)`.
A stable sort by a consistent comparator has a unique result, so any model
of the (stable) JS sort computes this list. -/
def stableSort : List SuggestItem → List SuggestItem
  | [] => []
  | a :: as => insertSorted a (stableSort as)

/-- The inner `sort()` helper of `lookup` (src/symspell.js lines 148-156):
sort by distance ascending then count descending, and drop entries with an
empty (falsy) term.  The final line of the source reads `this.mode`, but
`sort()` is invoked as a plain function call, so in sloppy mode `this` is
the global object, whose `mode` property is undefined; the comparison with
`SymSpell.Modes.TOP` is therefore always false and the TOP truncation never
executes.  The embedding accordingly returns the whole filtered list. -/
def sortSuggestions (suggestions : List SuggestItem) : List SuggestItem :=
  (stableSort suggestions).filter fun a => decide (a.term ≠ [])

/-- The `while (candidates.length > 0)` loop of `lookup` (src/symspell.js
lines 158-211), with all mutable state explicit: the FIFO `candidates`
queue and the `suggestions` accumulator.  `fuel` only drives the structural
recursion and is returned as exhausted (`none`) when it runs out; the
termination theorem below shows `(word.length + 1)!` fuel always
suffices. -/
def lookupLoopFuel (d : Dict) (maxEditDistance : Nat) (mode : Mode) (word language : Str) :
    Nat → List EditItem → List SuggestItem → Option (List SuggestItem)
  | fuel, candidates, suggestions =>
    match candidates with
    | [] => some (sortSuggestions suggestions)
    | candidate :: rest =>
      match fuel with
      | 0 => none
      | fuel + 1 =>
        if (mode ≠ Mode.ALL ∧ suggestions ≠ [] ∧ candidate.distance > headDistanceS suggestions)
            ∨ candidate.distance > maxEditDistance then
          some (sortSuggestions suggestions)
        else
          let next : List SuggestItem → Option (List SuggestItem) := fun sugg =>
            let newCandidates :=
              if candidate.distance < maxEditDistance then
                (computePermutations candidate.term candidate.distance 0).foldl
                  (fun cs p => if wordListContainsE cs p.term then cs else cs ++ [p]) rest
              else rest
            lookupLoopFuel d maxEditDistance mode word language fuel newCandidates sugg
          match d (language ++ candidate.term) with
          | none => next suggestions
          | some entry =>
            let si : SuggestItem :=
              { term := entry.term, distance := candidate.distance, count := entry.count }
            if wordListContainsS suggestions si.term then
              next (processNearby d maxEditDistance mode word language candidate
                entry.suggestions suggestions)
            else if mode ≠ Mode.ALL ∧ candidate.distance = 0 then
              some (sortSuggestions (suggestions ++ [si]))
            else
              next (processNearby d maxEditDistance mode word language candidate
                entry.suggestions (suggestions ++ [si]))

/-- The JS `SymSpell.prototype.lookup(word, language)` on an engine with
bound `maxEditDistance` and mode `mode`, seeded with the candidate
`(word, 0)`. -/
def lookup (d : Dict) (maxEditDistance : Nat) (mode : Mode) (word language : Str) :
    List SuggestItem :=
  (lookupLoopFuel d maxEditDistance mode word language (word.length + 1).factorial
    [{ term := word, distance := 0 }] []).getD []

/-! ## Auxiliary predicates and measures used by the theorems below -/

/-- Dictionary states reachable by a sequence of `addTerm` calls on an
engine with fixed bound and mode, starting from a fresh dictionary. -/
inductive ReachableDict (maxED : Nat) (mode : Mode) : Dict → Prop where
  | nil : ReachableDict maxED mode emptyDict
  | add (d : Dict) (word language : Str) :
      ReachableDict maxED mode d →
      ReachableDict maxED mode (addWord d maxED mode word language)

/-- All stored references in a suggestions list share one distance. -/
def uniformDist (l : List EditItem) : Prop :=
  ∀ x ∈ l, ∀ y ∈ l, x.distance = y.distance

/-- Every entry of the dictionary has a uniform-distance suggestions
list. -/
def dictUniform (d : Dict) : Prop :=
  ∀ k e, d k = some e → uniformDist e.suggestions

/-- Dictionary states built by a recorded sequence of `addTerm(word,
language)` calls (listed most recent first). -/
inductive BuiltFrom (maxED : Nat) (mode : Mode) : List (Str × Str) → Dict → Prop where
  | nil : BuiltFrom maxED mode [] emptyDict
  | cons (ps : List (Str × Str)) (d : Dict) (word language : Str) :
      BuiltFrom maxED mode ps d →
      BuiltFrom maxED mode ((word, language) :: ps) (addWord d maxED mode word language)

/-- Termination measure of the work queue: the sum of `(length + 1)!` over
the queued candidate terms. -/
def factSum (cs : List EditItem) : Nat :=
  (cs.map fun c => (c.term.length + 1).factorial).sum


/-! ## C1 and C2: evaluations exhibiting the lookup bugs

The TOP truncation of `sort()` reads `this.mode` from the global object (a
plain call binds `this` to it in sloppy mode), so it never fires; and
`addWord` treats any existing entry — including a pure variant bucket — as
an already-known word, so a word whose key was already created as a variant
of an earlier word never becomes canonical. -/

/-- C1: with mode TOP, after adding "ab" and "ac", looking up "ad" returns
TWO suggestions, not one: the claimed TOP truncation (`this.mode` inside the
inner `sort()` helper is read off the global object, not the engine) never
executes. -/
theorem claim_C1_eval :
    lookup
      (addWord (addWord emptyDict 2 Mode.TOP "ab".toList "en".toList) 2 Mode.TOP
        "ac".toList "en".toList)
      2 Mode.TOP "ad".toList "en".toList =
      [⟨"ab".toList, 1, 1⟩, ⟨"ac".toList, 1, 1⟩] := by decide

/-- C2: "ten" is added verbatim (after "tent", whose one-deletion variant
created the key "enten" as a bucket), yet a SMALLEST-mode lookup of "ten"
returns the empty list instead of a first suggestion with distance 0 and
term "ten": `addWord` only checks entry existence, never sets the canonical
term on a pre-existing variant bucket, and the resulting empty-term
suggestion is filtered out. -/
theorem claim_C2_eval :
    lookup
      (addWord (addWord emptyDict 2 Mode.SMALLEST "tent".toList "en".toList) 2 Mode.SMALLEST
        "ten".toList "en".toList)
      2 Mode.SMALLEST "ten".toList "en".toList = [] := by decide

/-- C3: after `addTerm("tent", "en")` then `addTerm("ten", "en")`, the entry
at key "enten" still has an unset canonical term (`term = ""`) with
`count = 1`, and the variant bucket "ente" (for "te", a delete-variant of
both "tent" and "ten") still references only "tent": the existing-entry
branch of `addWord` fires on mere key existence — not on
"exists AND canonicalTerm set" — so it neither sets `canonicalTerm = "ten"`
nor generates the variants of "ten". -/
theorem claim_C3_eval :
    (addWord (addWord emptyDict 2 Mode.ALL "tent".toList "en".toList) 2 Mode.ALL
        "ten".toList "en".toList) ("en".toList ++ "ten".toList) =
      some { term := [], suggestions := [⟨"tent".toList, 1⟩], count := 1 } ∧
    (addWord (addWord emptyDict 2 Mode.ALL "tent".toList "en".toList) 2 Mode.ALL
        "ten".toList "en".toList) ("en".toList ++ "te".toList) =
      some { term := [], suggestions := [⟨"tent".toList, 2⟩], count := 0 } := by
  constructor <;> decide

/-- C4: one call of the Variant Generator on "aa" with budget 2 returns the
variant string "a" twice: the `indexOf` deduplication guard compares object
references of freshly allocated items and therefore never rejects
anything. -/
theorem claim_C4_eval :
    computePermutations "aa".toList 0 2 = [⟨"a".toList, 1⟩, ⟨"a".toList, 1⟩] ∧
    ¬ ((computePermutations "aa".toList 0 2).map EditItem.term).Nodup := by
  constructor <;> decide

/-- C6 counterexample: with `maxEditDistance = 1` (which satisfies the
claimed bound `maxEditDistance ≥ 1`), after `addTerm("in", "en")` the call
`lookup("nn", "en")` returns the empty list — the suggestion "in" at true
distance 1 is rejected by the strict comparison
`distance < this.maxEditDistance`. -/
theorem claim_C6_counterexample :
    lookup (addWord emptyDict 1 Mode.ALL "in".toList "en".toList) 1 Mode.ALL
      "nn".toList "en".toList = [] := by decide

/-- C6 amended: for every engine bound `maxEditDistance ≥ 2` in the default
mode (ALL), after `addTerm("in", "en")` the lookup of "nn" contains the
suggestion "in" with distance 1 (the original claim, with the bound
`maxEditDistance ≥ 1` tightened to `≥ 2`, which the strict comparison
`distance < this.maxEditDistance` in the source forces). -/
theorem claim_C6_amended (maxED : Nat) (h : 2 ≤ maxED) :
    (⟨"in".toList, 1, 1⟩ : SuggestItem) ∈
      lookup (addWord emptyDict maxED Mode.ALL "in".toList "en".toList) maxED Mode.ALL
        "nn".toList "en".toList := by
  obtain ⟨k, rfl⟩ : ∃ k, maxED = k + 2 := ⟨maxED - 2, by omega⟩
  have hpermk : computePermutations "in".toList 0 (k + 2) =
      [⟨"n".toList, 1⟩, ⟨"i".toList, 1⟩] := by
    show computePermutationsF 2 "in".toList 0 (k + 2) = _
    simp only [computePermutationsF, List.range_succ, List.range_zero, List.map_append,
      List.map_cons, List.map_nil, List.nil_append, List.cons_append, List.flatten,
      (by decide : "in".toList.length > 1),
      (by decide : ¬ ("in".toList.eraseIdx 0).length > 1),
      (by decide : ¬ ("in".toList.eraseIdx 1).length > 1),
      ite_self, reduceIte]
    decide
  have hperm2 : computePermutations "in".toList 0 2 =
      [⟨"n".toList, 1⟩, ⟨"i".toList, 1⟩] := by decide
  have hdict : addWord emptyDict (k + 2) Mode.ALL "in".toList "en".toList =
      addWord emptyDict 2 Mode.ALL "in".toList "en".toList := by
    simp only [addWord, emptyDict, hpermk, hperm2]
  rw [hdict]
  have e1 : addWord emptyDict 2 Mode.ALL "in".toList "en".toList
      ("en".toList ++ "nn".toList) = none := by decide
  have e2 : addWord emptyDict 2 Mode.ALL "in".toList "en".toList
      ("en".toList ++ "n".toList) = some ⟨[], [⟨"in".toList, 1⟩], 0⟩ := by decide
  have e3 : addWord emptyDict 2 Mode.ALL "in".toList "en".toList
      ("en".toList ++ "in".toList) = some ⟨"in".toList, [], 1⟩ := by decide
  have hp0 : computePermutations "nn".toList 0 0 = [⟨"n".toList, 1⟩, ⟨"n".toList, 1⟩] := by
    decide
  have hp1 : computePermutations "n".toList 1 0 = ([] : List EditItem) := by decide
  have w1 : wordListContainsE [] "n".toList = false := by decide
  have w2 : wordListContainsE [⟨"n".toList, 1⟩] "n".toList = true := by decide
  have w3 : wordListContainsS [] ([] : Str) = false := by decide
  have w4 : wordListContainsS [⟨[], 1, 0⟩] "in".toList = false := by decide
  have hred : realEditDistance ⟨"in".toList, 1⟩ ⟨"n".toList, 1⟩ "nn".toList = 1 := by decide
  have c0 : ¬ ((0 : Nat) > k + 2) := by omega
  have c1 : ¬ ((1 : Nat) > k + 2) := by omega
  have c2 : (0 : Nat) < k + 2 := by omega
  have c3 : (1 : Nat) < k + 2 := by omega
  have base : ∀ S : List SuggestItem,
      lookupLoopFuel (addWord emptyDict 2 Mode.ALL "in".toList "en".toList) (k + 2) Mode.ALL
        "nn".toList "en".toList 4 [] S = some (sortSuggestions S) := fun S => rfl
  have step1 :
      lookupLoopFuel (addWord emptyDict 2 Mode.ALL "in".toList "en".toList) (k + 2) Mode.ALL
        "nn".toList "en".toList 6 [⟨"nn".toList, 0⟩] [] =
      lookupLoopFuel (addWord emptyDict 2 Mode.ALL "in".toList "en".toList) (k + 2) Mode.ALL
        "nn".toList "en".toList 5 [⟨"n".toList, 1⟩] [] := by
    conv_lhs => rw [lookupLoopFuel]
    simp only [ne_eq, not_true_eq_false, false_and, false_or, c0, c2, reduceIte, e1, hp0,
      List.foldl_cons, List.foldl_nil, w1, w2, Bool.false_eq_true, List.nil_append]
  have step2 :
      lookupLoopFuel (addWord emptyDict 2 Mode.ALL "in".toList "en".toList) (k + 2) Mode.ALL
        "nn".toList "en".toList 5 [⟨"n".toList, 1⟩] [] =
      some (sortSuggestions [⟨[], 1, 0⟩, ⟨"in".toList, 1, 1⟩]) := by
    conv_lhs => rw [lookupLoopFuel]
    simp only [processNearby, ne_eq, not_true_eq_false, false_and, false_or, and_false,
      c1, c3, reduceIte, e2, e3, hp1, List.foldl_cons, List.foldl_nil, w3, w4, hred,
      Bool.false_eq_true, List.nil_append, List.cons_append, headDistanceS, base]
  show (⟨"in".toList, 1, 1⟩ : SuggestItem) ∈
    (lookupLoopFuel (addWord emptyDict 2 Mode.ALL "in".toList "en".toList) (k + 2) Mode.ALL
      "nn".toList "en".toList 6 [⟨"nn".toList, 0⟩] []).getD []
  rw [step1, step2]
  decide

/-- Witness for the amended C6 at the concrete bound 2. -/
theorem claim_C6_amended_witness :
    2 ≤ 2 ∧
    (⟨"in".toList, 1, 1⟩ : SuggestItem) ∈
      lookup (addWord emptyDict 2 Mode.ALL "in".toList "en".toList) 2 Mode.ALL
        "nn".toList "en".toList :=
  ⟨by decide, claim_C6_amended 2 (by decide)⟩

/-! ## Symmetry of the Distance Verifier -/

theorem char_beq_comm (a b : Char) : (a == b) = (b == a) := by
  by_cases h : a = b
  · subst h; rfl
  · rw [beq_false_of_ne h, beq_false_of_ne (Ne.symm h)]

/-- Unfolding of the interior-cell case of the DP table. -/
theorem scoreF_succ (s t : Str) (fuel i j : Nat) :
    scoreF s t (fuel + 1) (i + 2) (j + 2) =
      min
        (if s.getD i ' ' == t.getD j ' ' then scoreF s t fuel (i + 1) (j + 1)
         else
           min (scoreF s t fuel (i + 1) (j + 1))
             (min (scoreF s t fuel (i + 2) (j + 1)) (scoreF s t fuel (i + 1) (j + 2))) + 1)
        (scoreF s t fuel
            (lastBelow (fun k => s.getD (k - 1) ' ' == t.getD j ' ') (i + 1))
            (lastBelow (fun k => t.getD (k - 1) ' ' == s.getD i ' ') (j + 1))
          + ((i + 1) - lastBelow (fun k => s.getD (k - 1) ' ' == t.getD j ' ') (i + 1) - 1)
          + 1
          + ((j + 1) - lastBelow (fun k => t.getD (k - 1) ' ' == s.getD i ' ') (j + 1) - 1)) :=
  rfl

/-- Transposing the roles of source and target transposes the DP table. -/
theorem scoreF_symm (s t : Str) :
    ∀ fuel i j, scoreF s t fuel i j = scoreF t s fuel j i := by
  intro fuel
  induction fuel with
  | zero =>
    intro i j
    match i, j with
    | 0, 0 =>
      show s.length + t.length = t.length + s.length
      omega
    | 0, j + 1 =>
      cases j with
      | zero =>
        show s.length + t.length = t.length + s.length
        omega
      | succ j =>
        show s.length + t.length = t.length + s.length
        omega
    | i + 1, 0 =>
      cases i with
      | zero =>
        show s.length + t.length = t.length + s.length
        omega
      | succ i =>
        show s.length + t.length = t.length + s.length
        omega
    | 1, j + 1 =>
      cases j with
      | zero => rfl
      | succ j => rfl
    | i + 2, 1 => rfl
    | i + 2, j + 2 => rfl
  | succ fuel ih =>
    intro i j
    match i, j with
    | 0, 0 =>
      show s.length + t.length = t.length + s.length
      omega
    | 0, j + 1 =>
      cases j with
      | zero =>
        show s.length + t.length = t.length + s.length
        omega
      | succ j =>
        show s.length + t.length = t.length + s.length
        omega
    | i + 1, 0 =>
      cases i with
      | zero =>
        show s.length + t.length = t.length + s.length
        omega
      | succ i =>
        show s.length + t.length = t.length + s.length
        omega
    | 1, j + 1 =>
      cases j with
      | zero => rfl
      | succ j => rfl
    | i + 2, 1 => rfl
    | i + 2, j + 2 =>
      rw [scoreF_succ s t, scoreF_succ t s]
      rw [char_beq_comm (t.getD j ' ') (s.getD i ' ')]
      rw [← ih (i + 1) (j + 1), ← ih (i + 2) (j + 1), ← ih (i + 1) (j + 2),
        ← ih (lastBelow (fun k => s.getD (k - 1) ' ' == t.getD j ' ') (i + 1))
          (lastBelow (fun k => t.getD (k - 1) ' ' == s.getD i ' ') (j + 1))]
      congr 1
      · by_cases hc : (s.getD i ' ' == t.getD j ' ') = true
        · rw [if_pos hc, if_pos hc]
        · rw [if_neg hc, if_neg hc, Nat.min_comm (scoreF s t fuel (i + 2) (j + 1))
            (scoreF s t fuel (i + 1) (j + 2))]
      · omega

/-- Symmetry of the embedded `distance`. -/
theorem distance_symm (a b : Str) : distance a b = distance b a := by
  unfold distance
  by_cases ha : a.length = 0
  · by_cases hb : b.length = 0
    · simp [ha, hb]
    · simp [ha, hb]
  · by_cases hb : b.length = 0
    · simp [ha, hb]
    · simp only [ha, hb, if_false]
      unfold score
      rw [scoreF_symm a b]
      congr 1
      omega

/-- C5: for all strings `a` and `b`, `distance(a, b)` equals
`distance(b, a)`. -/
theorem claim_C5 (a b : Str) : distance a b = distance b a :=
  distance_symm a b

/-! ## Ordering of returned suggestion lists (C7) -/

theorem suggestLe_total (a b : SuggestItem) : suggestLe a b ∨ suggestLe b a := by
  unfold suggestLe
  omega

theorem suggestLe_trans (a b c : SuggestItem) (h1 : suggestLe a b) (h2 : suggestLe b c) :
    suggestLe a c := by
  unfold suggestLe at h1 h2 ⊢
  omega

theorem mem_insertSorted (a x : SuggestItem) (l : List SuggestItem) :
    x ∈ insertSorted a l ↔ x = a ∨ x ∈ l := by
  induction l with
  | nil => simp [insertSorted]
  | cons b bs ih =>
    by_cases h : suggestLe a b
    · rw [insertSorted, if_pos h]
      simp [List.mem_cons]
    · rw [insertSorted, if_neg h]
      simp only [List.mem_cons, ih]
      tauto

theorem pairwise_insertSorted (a : SuggestItem) (l : List SuggestItem)
    (hl : l.Pairwise suggestLe) : (insertSorted a l).Pairwise suggestLe := by
  induction l with
  | nil => simp [insertSorted]
  | cons b bs ih =>
    rcases List.pairwise_cons.mp hl with ⟨hb, hbs⟩
    by_cases h : suggestLe a b
    · rw [insertSorted, if_pos h]
      refine List.pairwise_cons.mpr ⟨?_, hl⟩
      intro x hx
      rcases List.mem_cons.mp hx with rfl | hx
      · exact h
      · exact suggestLe_trans a b x h (hb x hx)
    · rw [insertSorted, if_neg h]
      refine List.pairwise_cons.mpr ⟨?_, ih hbs⟩
      intro x hx
      rcases (mem_insertSorted a x bs).mp hx with rfl | hx
      · rcases suggestLe_total x b with h1 | h2
        · exact (h h1).elim
        · exact h2
      · exact hb x hx

theorem pairwise_stableSort (l : List SuggestItem) : (stableSort l).Pairwise suggestLe := by
  induction l with
  | nil => simp [stableSort]
  | cons a as ih => exact pairwise_insertSorted a _ ih

theorem pairwise_sortSuggestions (l : List SuggestItem) :
    (sortSuggestions l).Pairwise suggestLe :=
  (pairwise_stableSort l).filter _

/-- Every successful run of the lookup loop returns a list of the form
`sortSuggestions x`: all exits of the `while` loop go through the inner
`sort()` helper. -/
theorem lookupLoopFuel_shape (d : Dict) (m : Nat) (mo : Mode) (w lang : Str) :
    ∀ fuel cs sugg r, lookupLoopFuel d m mo w lang fuel cs sugg = some r →
      ∃ x, r = sortSuggestions x := by
  intro fuel
  induction fuel with
  | zero =>
    intro cs sugg r h
    match cs with
    | [] => exact ⟨sugg, (Option.some.inj h).symm⟩
    | c :: rest =>
      rw [lookupLoopFuel] at h
      exact Option.noConfusion h
  | succ fuel ih =>
    intro cs sugg r h
    match cs with
    | [] => exact ⟨sugg, (Option.some.inj h).symm⟩
    | c :: rest =>
      rw [lookupLoopFuel] at h
      split at h
      · exact ⟨sugg, (Option.some.inj h).symm⟩
      · simp only at h
        split at h
        · exact ih _ _ _ h
        · split at h
          · exact ih _ _ _ h
          · split at h
            · exact ⟨_, (Option.some.inj h).symm⟩
            · exact ih _ _ _ h

/-- C7: for every dictionary state, engine configuration and input, the
list returned by `lookup` is non-decreasing in `distance`, and among
entries of equal `distance` it is non-increasing in `count`. -/
theorem claim_C7 (d : Dict) (maxED : Nat) (mode : Mode) (word language : Str) :
    (lookup d maxED mode word language).Pairwise
      (fun a b => a.distance ≤ b.distance ∧ (a.distance = b.distance → b.count ≤ a.count)) := by
  unfold lookup
  cases hres : lookupLoopFuel d maxED mode word language
      (word.length + 1).factorial [⟨word, 0⟩] [] with
  | none => simp
  | some r =>
    obtain ⟨x, rfl⟩ := lookupLoopFuel_shape d maxED mode word language _ _ _ _ hres
    simp only [Option.getD_some]
    refine (pairwise_sortSuggestions x).imp ?_
    intro a b hab
    unfold suggestLe at hab
    exact ⟨by omega, fun _ => by omega⟩

/-! ## The nearbyTerms invariant in TOP and SMALLEST modes (C8) -/

theorem uniformDist_nil : uniformDist [] := by
  intro x hx
  exact absurd hx (List.not_mem_nil x)

theorem uniformDist_singleton (s : EditItem) : uniformDist [s] := by
  intro x hx y hy
  rw [List.mem_singleton.mp hx, List.mem_singleton.mp hy]

theorem uniformDist_tail (a : EditItem) (l : List EditItem) (h : uniformDist (a :: l)) :
    uniformDist l :=
  fun x hx y hy => h x (List.mem_cons_of_mem a hx) y (List.mem_cons_of_mem a hy)

/-- In a non-ALL mode, `addOrTerminateEarly` either restarts the list with
the new reference, appends a reference of equal distance to the head, or
leaves the list unchanged. -/
theorem addOrTerminateEarly_cases (l : List EditItem) (s : EditItem) (mode : Mode)
    (hm : mode ≠ Mode.ALL) :
    addOrTerminateEarly l s mode = [s] ∨
    (∃ s0 rest, l = s0 :: rest ∧ s0.distance = s.distance ∧
      addOrTerminateEarly l s mode = l ++ [s]) ∨
    addOrTerminateEarly l s mode = l := by
  cases l with
  | nil =>
    left
    simp only [addOrTerminateEarly]
    rw [ite_self]
    have hO : mode = Mode.ALL ∨ ([] : List EditItem) = [] ∨ headDistanceE [] ≥ s.distance :=
      Or.inr (Or.inl rfl)
    rw [if_pos hO]
    exact List.nil_append _
  | cons s0 rest =>
    by_cases h1 : headDistanceE (s0 :: rest) > s.distance
    · have hc1 : mode ≠ Mode.ALL ∧ s0 :: rest ≠ [] ∧ headDistanceE (s0 :: rest) > s.distance :=
        ⟨hm, List.cons_ne_nil s0 rest, h1⟩
      left
      simp only [addOrTerminateEarly]
      rw [if_pos hc1]
      have hO : mode = Mode.ALL ∨ ([] : List EditItem) = [] ∨ headDistanceE [] ≥ s.distance :=
        Or.inr (Or.inl rfl)
      rw [if_pos hO]
      exact List.nil_append _
    · have hc1 : ¬ (mode ≠ Mode.ALL ∧ s0 :: rest ≠ [] ∧ headDistanceE (s0 :: rest) > s.distance) :=
        fun hc => h1 hc.2.2
      by_cases h2 : headDistanceE (s0 :: rest) ≥ s.distance
      · refine Or.inr (Or.inl ⟨s0, rest, rfl, ?_, ?_⟩)
        · have he : headDistanceE (s0 :: rest) = s0.distance := rfl
          omega
        · simp only [addOrTerminateEarly]
          rw [if_neg hc1]
          have hO : mode = Mode.ALL ∨ s0 :: rest = [] ∨ headDistanceE (s0 :: rest) ≥ s.distance :=
            Or.inr (Or.inr h2)
          rw [if_pos hO]
      · refine Or.inr (Or.inr ?_)
        simp only [addOrTerminateEarly]
        rw [if_neg hc1]
        have hO : ¬ (mode = Mode.ALL ∨ s0 :: rest = [] ∨ headDistanceE (s0 :: rest) ≥ s.distance) := by
          rintro (hA | hn | hg)
          · exact hm hA
          · exact List.cons_ne_nil s0 rest hn
          · exact h2 hg
        rw [if_neg hO]

theorem addOrTerminateEarly_uniform (l : List EditItem) (s : EditItem) (mode : Mode)
    (hm : mode ≠ Mode.ALL) (hl : uniformDist l) :
    uniformDist (addOrTerminateEarly l s mode) := by
  rcases addOrTerminateEarly_cases l s mode hm with h | ⟨s0, rest, rfl, hds, h⟩ | h
  · rw [h]; exact uniformDist_singleton s
  · rw [h]
    intro x hx y hy
    rcases List.mem_append.mp hx with hx | hx
    · rcases List.mem_append.mp hy with hy | hy
      · exact hl x hx y hy
      · rw [List.mem_singleton.mp hy, hl x hx s0 (List.mem_cons_self s0 rest), hds]
    · rcases List.mem_append.mp hy with hy | hy
      · rw [List.mem_singleton.mp hx, ← hds, hl s0 (List.mem_cons_self s0 rest) y hy]
      · rw [List.mem_singleton.mp hx, List.mem_singleton.mp hy]
  · rw [h]; exact hl

theorem updateDict_uniform (d : Dict) (k : Str) (v : DictionaryItem)
    (hd : dictUniform d) (hv : uniformDist v.suggestions) :
    dictUniform (updateDict d k v) := by
  intro q e he
  unfold updateDict at he
  split at he
  · rw [← Option.some.inj he]; exact hv
  · exact hd q e he

theorem foldl_preserve {α β : Type} (P : β → Prop) (f : β → α → β)
    (hf : ∀ b a, P b → P (f b a)) (l : List α) : ∀ b, P b → P (l.foldl f b) := by
  induction l with
  | nil => exact fun b hb => hb
  | cons a as ih =>
    intro b hb
    rw [List.foldl_cons]
    exact ih _ (hf b a hb)

theorem registerVariant_uniform (mode : Mode) (word language : Str) (dAcc : Dict)
    (ps : EditItem) (hm : mode ≠ Mode.ALL) (hAcc : dictUniform dAcc) :
    dictUniform (registerVariant mode word language dAcc ps) := by
  unfold registerVariant
  dsimp only
  cases h2 : dAcc (language ++ ps.term) with
  | some entry =>
    dsimp only
    by_cases hc : wordListContainsE entry.suggestions word = true
    · rw [if_pos hc]
      exact hAcc
    · rw [if_neg hc]
      exact updateDict_uniform dAcc _ _ hAcc
        (addOrTerminateEarly_uniform entry.suggestions _ mode hm (hAcc _ entry h2))
  | none =>
    exact updateDict_uniform dAcc _ _ hAcc (uniformDist_singleton _)

theorem addWord_uniform (d : Dict) (maxED : Nat) (mode : Mode) (word language : Str)
    (hm : mode ≠ Mode.ALL) (hd : dictUniform d) :
    dictUniform (addWord d maxED mode word language) := by
  unfold addWord
  dsimp only
  cases h : d (language ++ word) with
  | some item =>
    exact updateDict_uniform d _ _ hd (hd _ item h)
  | none =>
    have hd1 : dictUniform (updateDict d (language ++ word) ⟨word, [], 0⟩) :=
      updateDict_uniform d _ _ hd uniformDist_nil
    have hd2 : dictUniform (List.foldl (registerVariant mode word language)
        (updateDict d (language ++ word) ⟨word, [], 0⟩) (computePermutations word 0 maxED)) :=
      foldl_preserve dictUniform (registerVariant mode word language)
        (fun b a hb => registerVariant_uniform mode word language b a hm hb)
        (computePermutations word 0 maxED) _ hd1
    cases h3 : List.foldl (registerVariant mode word language)
        (updateDict d (language ++ word) ⟨word, [], 0⟩) (computePermutations word 0 maxED)
        (language ++ word) with
    | some item => exact updateDict_uniform _ _ _ hd2 (hd2 _ item h3)
    | none => exact hd2

theorem uniformDist_pairwise (l : List EditItem) (hu : uniformDist l) :
    l.Pairwise (fun a b => a.distance ≤ b.distance) := by
  induction l with
  | nil => exact List.Pairwise.nil
  | cons a rest ih =>
    refine List.pairwise_cons.mpr ⟨?_, ih (uniformDist_tail a rest hu)⟩
    intro y hy
    rw [hu a (List.mem_cons_self a rest) y (List.mem_cons_of_mem a hy)]

theorem reachable_uniform (maxED : Nat) (mode : Mode) (d : Dict)
    (hm : mode ≠ Mode.ALL) (hr : ReachableDict maxED mode d) : dictUniform d := by
  induction hr with
  | nil => intro k e he; exact absurd he (by simp [emptyDict])
  | add d word language _ ih => exact addWord_uniform d maxED mode word language hm ih

/-- C8: in TOP and SMALLEST modes, after any sequence of `addTerm` calls,
every suggestions list stored in the dictionary is sorted by non-decreasing
distance and its first element has the minimal distance in the list (in
fact all stored distances are equal). -/
theorem claim_C8 (maxED : Nat) (mode : Mode) (hm : mode ≠ Mode.ALL) (d : Dict)
    (hr : ReachableDict maxED mode d) (k : Str) (e : DictionaryItem)
    (he : d k = some e) :
    e.suggestions.Pairwise (fun a b => a.distance ≤ b.distance) ∧
    ∀ x ∈ e.suggestions, ∀ h0 ∈ e.suggestions.head?, h0.distance ≤ x.distance := by
  have hu : uniformDist e.suggestions := reachable_uniform maxED mode d hm hr k e he
  constructor
  · exact uniformDist_pairwise e.suggestions hu
  · intro x hx h0 hh0
    rw [hu h0 (List.mem_of_mem_head? hh0) x hx]

/-- Witness for C8 at a concrete reachable state: TOP mode, bound 2, after
`addTerm("in", "en")`, at the variant bucket stored under key "enn". -/
theorem claim_C8_witness :
    Mode.TOP ≠ Mode.ALL ∧
    (addWord emptyDict 2 Mode.TOP "in".toList "en".toList ("en".toList ++ "n".toList) =
      some ⟨[], [⟨"in".toList, 1⟩], 0⟩) ∧
    (([⟨"in".toList, 1⟩] : List EditItem).Pairwise (fun a b => a.distance ≤ b.distance) ∧
      ∀ x ∈ ([⟨"in".toList, 1⟩] : List EditItem),
        ∀ h0 ∈ ([⟨"in".toList, 1⟩] : List EditItem).head?, h0.distance ≤ x.distance) :=
  ⟨by decide, by decide,
    claim_C8 2 Mode.TOP (by decide) _
      (ReachableDict.add emptyDict "in".toList "en".toList ReachableDict.nil)
      ("en".toList ++ "n".toList) ⟨[], [⟨"in".toList, 1⟩], 0⟩ (by decide)⟩

/-! ## Empty lookups on well-formed dictionaries (C9) -/

/-- Every delete-variant produced by the Variant Generator is non-empty:
variants are only generated from words of length at least 2, by deleting a
single character at a time. -/
theorem computePermutationsF_term_ne_nil :
    ∀ (fuel : Nat) (w : Str) (ed m : Nat) (e : EditItem),
      e ∈ computePermutationsF fuel w ed m → e.term ≠ [] := by
  intro fuel
  induction fuel with
  | zero =>
    intro w ed m e he
    exact absurd he (List.not_mem_nil e)
  | succ fuel ih =>
    intro w ed m e he
    simp only [computePermutationsF] at he
    by_cases hw : w.length > 1
    · rw [if_pos hw] at he
      rcases List.mem_flatten.mp he with ⟨l, hl, hel⟩
      rcases List.mem_map.mp hl with ⟨i, hi, rfl⟩
      rcases List.mem_cons.mp hel with rfl | hrec
      · have hlen : (w.eraseIdx i).length = w.length - 1 := by
          rw [List.length_eraseIdx]
          simp [List.mem_range.mp hi]
        show w.eraseIdx i ≠ []
        rw [← List.length_pos]
        omega
      · split at hrec
        · exact ih _ _ _ e hrec
        · exact absurd hrec (List.not_mem_nil e)
    · rw [if_neg hw] at he
      exact absurd he (List.not_mem_nil e)

/-- `addWord` creates keys only of the form `language ++ u` with `u`
non-empty, so any other key keeps its (absent) binding. -/
theorem addWord_preserve_none (d : Dict) (maxED : Nat) (mode : Mode) (w l q : Str)
    (hw : w ≠ []) (hq : ∀ u : Str, u ≠ [] → q ≠ l ++ u) (hd : d q = none) :
    addWord d maxED mode w l q = none := by
  unfold addWord
  dsimp only
  cases h : d (l ++ w) with
  | some item =>
    show updateDict d (l ++ w) _ q = none
    unfold updateDict
    rw [if_neg (hq w hw)]
    exact hd
  | none =>
    have hstep : ∀ (perms : List EditItem), (∀ e ∈ perms, e.term ≠ []) →
        ∀ (dA : Dict), dA q = none →
          (List.foldl (registerVariant mode w l) dA perms) q = none := by
      intro perms
      induction perms with
      | nil => exact fun _ dA hdA => hdA
      | cons p rest ihp =>
        intro hne dA hdA
        rw [List.foldl_cons]
        apply ihp (fun e he => hne e (List.mem_cons_of_mem p he))
        unfold registerVariant
        dsimp only
        cases h2 : dA (l ++ p.term) with
        | some entry =>
          dsimp only
          split
          · exact hdA
          · show updateDict dA (l ++ p.term) _ q = none
            unfold updateDict
            rw [if_neg (hq p.term (hne p (List.mem_cons_self p rest)))]
            exact hdA
        | none =>
          show updateDict dA (l ++ p.term) _ q = none
          unfold updateDict
          rw [if_neg (hq p.term (hne p (List.mem_cons_self p rest)))]
          exact hdA
    have hd1 : (updateDict d (l ++ w) ⟨w, [], 0⟩) q = none := by
      unfold updateDict
      rw [if_neg (hq w hw)]
      exact hd
    have hd2 := hstep (computePermutations w 0 maxED)
      (fun e he => computePermutationsF_term_ne_nil _ _ _ _ e he) _ hd1
    cases h3 : List.foldl (registerVariant mode w l) (updateDict d (l ++ w) ⟨w, [], 0⟩)
        (computePermutations w 0 maxED) (l ++ w) with
    | some item =>
      show updateDict _ (l ++ w) _ q = none
      unfold updateDict
      rw [if_neg (hq w hw)]
      exact hd2
    | none => exact hd2

/-- On a dictionary built from non-empty terms whose language identifiers
satisfy the documented constraint relative to `lang` (no other identifier is
a proper prefix of `lang`), the bare key `lang` is never created. -/
theorem builtFrom_none (maxED : Nat) (mode : Mode) (ps : List (Str × Str)) (d : Dict)
    (lang : Str) (hb : BuiltFrom maxED mode ps d) :
    (∀ p ∈ ps, p.1 ≠ ([] : Str)) →
    (∀ p ∈ ps, ∀ u : Str, p.2 ++ u = lang → p.2 = lang) →
    d lang = none := by
  induction hb with
  | nil => intro _ _; rfl
  | cons ps d w l _ ih =>
    intro hne hpre
    have hw : w ≠ [] := hne (w, l) (List.mem_cons_self (w, l) ps)
    apply addWord_preserve_none d maxED mode w l lang hw
    · intro u hu hql
      have h1 : l = lang :=
        hpre (w, l) (List.mem_cons_self (w, l) ps) u hql.symm
      rw [h1] at hql
      have h2 := congrArg List.length hql
      simp only [List.length_append] at h2
      exact hu (List.eq_nil_of_length_eq_zero (by omega))
    · exact ih (fun p hp => hne p (List.mem_cons_of_mem (w, l) hp))
        (fun p hp => hpre p (List.mem_cons_of_mem (w, l) hp))

/-- A lookup of the empty string over a dictionary that has no entry at the
bare language key returns the empty list without any failure. -/
theorem lookup_empty (d : Dict) (maxED : Nat) (mode : Mode) (lang : Str)
    (hd : d lang = none) : lookup d maxED mode [] lang = [] := by
  unfold lookup
  show (lookupLoopFuel d maxED mode [] lang 1 [⟨[], 0⟩] []).getD [] = []
  rw [lookupLoopFuel]
  have hc : ¬ ((mode ≠ Mode.ALL ∧ ([] : List SuggestItem) ≠ [] ∧
      (⟨[], 0⟩ : EditItem).distance > headDistanceS []) ∨
      (⟨[], 0⟩ : EditItem).distance > maxED) := by
    rintro (⟨_, hnil, _⟩ | hgt)
    · exact hnil rfl
    · exact Nat.not_lt_zero maxED hgt
  rw [if_neg hc]
  dsimp only
  have hkey : d (lang ++ []) = none := by
    rw [List.append_nil]
    exact hd
  rw [hkey]
  dsimp only
  split <;> rfl

/-- C9: for every dictionary state built by `addTerm`/`addWords` from
non-empty terms under the documented language-identifier constraint,
`lookup("", language)` returns the empty suggestion list (and, being total,
throws nothing). -/
theorem claim_C9 (maxED : Nat) (mode : Mode) (ps : List (Str × Str)) (d : Dict) (lang : Str)
    (hb : BuiltFrom maxED mode ps d)
    (hne : ∀ p ∈ ps, p.1 ≠ ([] : Str))
    (hpre : ∀ p ∈ ps, ∀ u : Str, p.2 ++ u = lang → p.2 = lang) :
    lookup d maxED mode [] lang = [] :=
  lookup_empty d maxED mode lang (builtFrom_none maxED mode ps d lang hb hne hpre)

/-- Witness for C9 at a concrete state: `addTerm("ab", "en")` then a lookup
of the empty string under language "en". -/
theorem claim_C9_witness :
    (∀ p ∈ [("ab".toList, "en".toList)], p.1 ≠ ([] : Str)) ∧
    (∀ p ∈ [("ab".toList, "en".toList)],
      ∀ u : Str, p.2 ++ u = "en".toList → p.2 = "en".toList) ∧
    lookup (addWord emptyDict 2 Mode.ALL "ab".toList "en".toList) 2 Mode.ALL []
      "en".toList = [] := by
  refine ⟨by decide, ?_, ?_⟩
  · intro p hp u hu
    rw [List.mem_singleton.mp hp]
  · exact claim_C9 2 Mode.ALL [("ab".toList, "en".toList)] _ "en".toList
      (BuiltFrom.cons [] emptyDict "ab".toList "en".toList BuiltFrom.nil)
      (by decide)
      (fun p hp u hu => by rw [List.mem_singleton.mp hp])

/-! ## Termination of the lookup loop (C10)

Every candidate enqueued by the breadth-first expansion is obtained from
the popped candidate by deleting one character, hence is strictly shorter.
The factorial measure `factSum` (the sum of `(length + 1)!` over the queue)
strictly decreases on every iteration, so `(word.length + 1)!` fuel always
suffices for the loop to drain its queue. -/

theorem factSum_nil : factSum [] = 0 := rfl

theorem factSum_cons (c : EditItem) (cs : List EditItem) :
    factSum (c :: cs) = (c.term.length + 1).factorial + factSum cs := by
  simp [factSum]

theorem factSum_append (a b : List EditItem) :
    factSum (a ++ b) = factSum a + factSum b := by
  simp [factSum]

/-- Enqueuing deduplicated candidates adds at most the measure of the
generated variants. -/
theorem factSum_pushAll (perms : List EditItem) :
    ∀ rest : List EditItem,
      factSum (perms.foldl
        (fun cs p => if wordListContainsE cs p.term then cs else cs ++ [p]) rest)
      ≤ factSum rest + factSum perms := by
  induction perms with
  | nil => intro rest; simp [factSum]
  | cons p ps ih =>
    intro rest
    rw [List.foldl_cons, factSum_cons]
    by_cases hc : wordListContainsE rest p.term = true
    · rw [if_pos hc]
      have := ih rest
      omega
    · rw [if_neg hc]
      have h1 := ih (rest ++ [p])
      have h2 : factSum (rest ++ [p]) = factSum rest + (p.term.length + 1).factorial := by
        simp [factSum_append, factSum_cons, factSum_nil]
      omega

theorem sum_map_const {α : Type} (l : List α) (K : Nat) :
    (l.map fun _ => K).sum = l.length * K := by
  induction l with
  | nil => simp
  | cons a as ih =>
    simp only [List.map_cons, List.sum_cons, ih, List.length_cons]
    ring

theorem flatten_map_singleton {α β : Type} (l : List α) (f : α → β) :
    (l.map fun a => [f a]).flatten = l.map f := by
  induction l with
  | nil => rfl
  | cons a as ih => simp [ih]

/-- One level of variant generation (`maxEditDistance = 0`, as called from
the lookup loop) produces exactly one variant per character position, each
one character shorter. -/
theorem computePermutations_zero_level (t : Str) (ed : Nat) :
    factSum (computePermutations t ed 0) ≤ t.length * t.length.factorial := by
  unfold computePermutations
  cases hfuel : t.length with
  | zero => simp [computePermutationsF, factSum]
  | succ n =>
    rw [computePermutationsF]
    by_cases hw : t.length > 1
    · rw [if_pos hw]
      have hsimp : ((List.range t.length).map fun i =>
          ({ term := t.eraseIdx i, distance := ed + 1 } : EditItem) ::
            (if ed + 1 < 0 then computePermutationsF n (t.eraseIdx i) (ed + 1) 0 else [])) =
          (List.range t.length).map fun i =>
            [({ term := t.eraseIdx i, distance := ed + 1 } : EditItem)] := by
        refine List.map_congr_left ?_
        intro i _
        rw [if_neg (Nat.not_lt_zero (ed + 1))]
      rw [hsimp, flatten_map_singleton]
      unfold factSum
      rw [List.map_map]
      have hval : ∀ i ∈ List.range t.length,
          ((fun c : EditItem => (c.term.length + 1).factorial) ∘
            fun i => ({ term := t.eraseIdx i, distance := ed + 1 } : EditItem)) i =
          t.length.factorial := by
        intro i hi
        have hlen : (t.eraseIdx i).length = t.length - 1 := by
          rw [List.length_eraseIdx]
          simp [List.mem_range.mp hi]
        simp only [Function.comp]
        rw [hlen]
        congr 1
        omega
      rw [List.map_congr_left hval, sum_map_const, List.length_range, hfuel]
    · rw [if_neg hw]
      exact Nat.zero_le _

/-- The factorial measure bounds the fuel needed by the lookup loop. -/
theorem lookupLoopFuel_isSome (d : Dict) (maxED : Nat) (mode : Mode) (w lang : Str) :
    ∀ fuel cs sugg, factSum cs ≤ fuel →
      (lookupLoopFuel d maxED mode w lang fuel cs sugg).isSome := by
  intro fuel
  induction fuel with
  | zero =>
    intro cs sugg hle
    match cs with
    | [] => rfl
    | c :: rest =>
      rw [factSum_cons] at hle
      have := Nat.factorial_pos (c.term.length + 1)
      omega
  | succ fuel ih =>
    intro cs sugg hle
    match cs with
    | [] => rfl
    | c :: rest =>
      rw [lookupLoopFuel]
      have hnext : ∀ sugg' : List SuggestItem,
          (lookupLoopFuel d maxED mode w lang fuel
            (if c.distance < maxED then
              (computePermutations c.term c.distance 0).foldl
                (fun cs p => if wordListContainsE cs p.term then cs else cs ++ [p]) rest
            else rest) sugg').isSome := by
        intro sugg'
        apply ih
        rw [factSum_cons] at hle
        by_cases hlt : c.distance < maxED
        · rw [if_pos hlt]
          have h1 := factSum_pushAll (computePermutations c.term c.distance 0) rest
          have h2 := computePermutations_zero_level c.term c.distance
          have h5 := Nat.factorial_pos c.term.length
          have h6 : (c.term.length + 1).factorial =
              c.term.length * c.term.length.factorial + c.term.length.factorial := by
            rw [Nat.factorial_succ, Nat.succ_mul]
          omega
        · rw [if_neg hlt]
          have h5 := Nat.factorial_pos (c.term.length + 1)
          omega
      split
      · rfl
      · dsimp only
        split
        · exact hnext _
        · split
          · exact hnext _
          · split
            · rfl
            · exact hnext _

/-- C10: `lookup` terminates for every input word, language, and dictionary
state: with `(word.length + 1)!` fuel (the factorial measure of the seeded
queue) the breadth-first loop always drains its queue and returns a
result. -/
theorem claim_C10 (d : Dict) (maxED : Nat) (mode : Mode) (word language : Str) :
    ∃ res, lookupLoopFuel d maxED mode word language (word.length + 1).factorial
      [⟨word, 0⟩] [] = some res := by
  have h := lookupLoopFuel_isSome d maxED mode word language (word.length + 1).factorial
    [⟨word, 0⟩] [] (by simp [factSum_cons, factSum_nil])
  exact Option.isSome_iff_exists.mp h

end SymSpell
